import Mathlib

/-!
Shallow embedding of the release-resolution and archive-extraction core of
`dl-releases` (src/utils.rs, src/domain/release.rs), together with theorems
checking the specification's claims about it.

Modelling conventions:
* Rust `&str` values are Lean `String`s; character-level work is done on
  `String.toList`.  The regex class `\d` and Rust's `to_lowercase` are
  modelled over ASCII (the inputs the program handles are ASCII).
* Machine integers (`u64` in semver numeric identifiers, Unix permission
  modes) are `Nat` with explicit bounds where the source checks them.
* Fallible Rust functions returning `anyhow::Result` / `Result<_, E>`
  become `Except` with an explicit error inductive mirroring the source's
  error cases.
* File-system effects of `extract_file` are modelled as an ordered trace of
  events (`FsEvent`); the gzip and tar decoders are external crates and are
  passed in as oracle functions.
-/

deriving instance DecidableEq for Except

namespace DLReleases

/-- ASCII lowercasing of one character, modelling Rust `char::to_lowercase`
on the ASCII range (`A`..`Z` map to `a`..`z`, everything else unchanged). -/
def charLower (c : Char) : Char :=
  if 65 ≤ c.toNat ∧ c.toNat ≤ 90 then Char.ofNat (c.toNat + 32) else c

/-- Lowercase every character of a character list. -/
def lowerList (l : List Char) : List Char := l.map charLower

/-- Models Rust `str::to_lowercase` (ASCII range). -/
def lowerStr (s : String) : String := String.mk (lowerList s.toList)

/-- Tests whether `needle` is a prefix of `hay`. -/
def startsWithL : List Char → List Char → Bool
  | _, [] => true
  | [], _ :: _ => false
  | a :: s, b :: t => a == b && startsWithL s t

/-- Models Rust `str::contains` with a literal pattern — `containsL hay
needle` holds when `needle` occurs as a contiguous substring of `hay`. -/
def containsL : List Char → List Char → Bool
  | [], needle => needle.isEmpty
  | a :: s, needle => startsWithL (a :: s) needle || containsL s needle

/-- Tests whether `suffix` is a suffix of `s`. -/
def endsWithL (s suffix : List Char) : Bool :=
  s.drop (s.length - suffix.length) == suffix

/-- Models Rust `str::ends_with` with a literal pattern. -/
def strEndsWith (s suffix : String) : Bool := endsWithL s.toList suffix.toList

/-! ## VersionExtractor (src/utils.rs `extract_version`) -/

/-- Greedy match of the regex `\d+\.\d+\.\d+` anchored at the start of `l`:
each `\d+` takes the maximal run of digits (for this pattern backtracking to
a shorter run can never succeed, since the following character would then be
a digit, not `.`).  Returns the matched characters. -/
def matchTriple (l : List Char) : Option (List Char) :=
  if (l.takeWhile Char.isDigit).isEmpty then none
  else
    match l.dropWhile Char.isDigit with
    | [] => none
    | c1 :: r1 =>
      if c1 = '.' then
        if (r1.takeWhile Char.isDigit).isEmpty then none
        else
          match r1.dropWhile Char.isDigit with
          | [] => none
          | c2 :: r2 =>
            if c2 = '.' then
              if (r2.takeWhile Char.isDigit).isEmpty then none
              else
                some (l.takeWhile Char.isDigit ++ '.' :: r1.takeWhile Char.isDigit
                  ++ '.' :: r2.takeWhile Char.isDigit)
            else none
      else none

/-- Leftmost match of `\d+\.\d+\.\d+` in `l`, modelling
`Regex::captures`: try each start position from the left, greedy at the
first position that matches. -/
def findTriple : List Char → Option (List Char)
  | [] => none
  | c :: rest =>
    match matchTriple (c :: rest) with
    | some m => some m
    | none => findTriple rest

/-- Models `semver::Version` restricted to what `extract_version` can
produce: the matched text is always a bare `major.minor.patch` triple, so
the pre-release and build fields are always empty and are omitted. -/
structure Version where
  major : Nat
  minor : Nat
  patch : Nat
deriving DecidableEq

/-- Models semver numeric-identifier parsing: one or more ASCII digits,
no leading zero (unless the identifier is exactly `0`), value must fit in
`u64`. -/
def parseNumericIdent (l : List Char) : Option Nat :=
  if l.isEmpty then none
  else if ¬ l.all Char.isDigit then none
  else if 1 < l.length ∧ l.head? = some '0' then none
  else
    let v := l.foldl (fun acc c => acc * 10 + (c.toNat - 48)) 0
    if v < 2 ^ 64 then some v else none

/-- Models `semver::Version::parse` on the domain reachable from
`extract_version` (strings matching `\d+\.\d+\.\d+`, hence of the form
digits `.` digits `.` digits with no pre-release or build part). -/
def parseVersion (l : List Char) : Option Version :=
  match l.splitOn '.' with
  | [a, b, c] =>
    match parseNumericIdent a, parseNumericIdent b, parseNumericIdent c with
    | some x, some y, some z => some ⟨x, y, z⟩
    | _, _, _ => none
  | _ => none

/-- Error cases of `extract_version`: the `with_context` failure when the
regex finds no match (carrying the input text, as the message does), and
the `context` failure when `Version::parse` rejects the matched text. -/
inductive VError where
  | noVersionFound (s : String)
  | versionParseError
deriving DecidableEq

/-- Models `extract_version` (src/utils.rs lines 30–38): leftmost match of
`(\d+\.\d+\.\d+)`, error mentioning the input if absent, then
`Version::parse` on the matched substring. -/
def extract_version (s : String) : Except VError Version :=
  match findTriple s.toList with
  | none => .error (.noVersionFound s)
  | some m =>
    match parseVersion m with
    | some v => .ok v
    | none => .error .versionParseError

/-- A nonempty list of ASCII digits (one `\d+` group). -/
def isDigitRun (l : List Char) : Prop := l ≠ [] ∧ ∀ c ∈ l, c.isDigit = true

/-- Holds when `m` is exactly a string matching `\d+\.\d+\.\d+`. -/
def isTriple (m : List Char) : Prop :=
  ∃ a b c, isDigitRun a ∧ isDigitRun b ∧ isDigitRun c ∧
    m = a ++ '.' :: b ++ '.' :: c

/-- Some prefix of `l` matches `\d+\.\d+\.\d+`. -/
def tripleAt (l : List Char) : Prop := ∃ m rest, isTriple m ∧ l = m ++ rest

/-- Holds when `l` contains a substring matching `\d+\.\d+\.\d+` (the
declarative side of "the text contains a match of the pattern"). -/
def hasTriple (l : List Char) : Prop :=
  ∃ pre m post, isTriple m ∧ l = pre ++ m ++ post

/-! ## AssetSelector (src/domain/release.rs) -/

/-- One downloadable file attached to a release (src/domain/release.rs
`Asset`); `size` is a byte count (`u64`, non-negative). -/
structure Asset where
  name : String
  browser_download_url : String
  size : Nat
deriving DecidableEq

/-- Release metadata (src/domain/release.rs `Release`); the `jiff`
timestamp is modelled as an integer instant, it plays no role in the
claims. -/
structure Release where
  tag_name : String
  body : String
  created_at : Int
  assets : List Asset
deriving DecidableEq

/-- Models `FindAssetError` (src/domain/release.rs): no asset matched the
pattern, or several did (carrying the pattern and all matched names). -/
inductive FindAssetError where
  | noAsset (pat : String)
  | manyAssets (pat : String) (assets : List String)
deriving DecidableEq

/-- The filter predicate of `find_asset`:
`o.name.to_lowercase().contains(pat)` — the asset name is lowercased, the
pattern is used as given. -/
def assetMatches (a : Asset) (pat : String) : Bool :=
  containsL (lowerList a.name.toList) pat.toList

/-- Models `Release::find_asset` (src/domain/release.rs lines 24–41):
collect all assets whose lowercased name contains `pat`; zero matches is
`NoAsset`, more than one is `ManyAssets` with every matched name, exactly
one is returned. -/
def Release.find_asset (r : Release) (pat : String) :
    Except FindAssetError Asset :=
  match r.assets.filter (fun o => assetMatches o pat) with
  | [] => .error (.noAsset pat)
  | [a] => .ok a
  | a :: b :: rest =>
    .error (.manyAssets pat ((a :: b :: rest).map Asset.name))

/-- Models `Release::version` (src/domain/release.rs lines 43–48): the
version extracted from the tag name, falling back to the body only when
the tag yields none. -/
def Release.version (r : Release) : Except VError Version :=
  match extract_version r.tag_name with
  | .ok v => .ok v
  | .error _ => extract_version r.body

/-! ## ArchiveExtractor (src/utils.rs) -/

/-- Models `SupportedExtension` (src/utils.rs): the closed set of
recognized archive kinds. -/
inductive SupportedExtension where
  | gz
  | targz
deriving DecidableEq

/-- Error cases of extraction: `file_name()` returned nothing,
`File extension not supported.`, and the final `bail!` of the tar branch
(carrying the target file name and the archive path, as the message
does). -/
inductive ExtractError where
  | failedFileName
  | unsupportedExtension
  | fileNotFoundInArchive (fname : String) (path : String)
deriving DecidableEq

/-- Models Rust `Path::file_name`: the last normal component of the path
(`""` and `"."` components are dropped, a trailing separator is ignored),
`none` when the path is empty, a root, or ends in `..`. -/
def fileName (path : String) : Option String :=
  match ((path.toList.splitOn '/').filter
      (fun c => c != ([] : List Char) && c != ['.'])).getLast? with
  | none => none
  | some last => if last == ['.', '.'] then none else some (String.mk last)

/-- Models `SupportedExtension::from_path` (src/utils.rs lines 48–63):
take the path's file name, classify `.tar.gz` before `.gz`, otherwise
fail. -/
def SupportedExtension.from_path (path : String) :
    Except ExtractError SupportedExtension :=
  match fileName path with
  | none => .error .failedFileName
  | some name =>
    if strEndsWith name ".tar.gz" then .ok .targz
    else if strEndsWith name ".gz" then .ok .gz
    else .error .unsupportedExtension

/-- One tar entry: its path inside the archive and its decompressed byte
content. -/
structure TarEntry where
  path : String
  content : List Nat
deriving DecidableEq

/-- File-system effects performed by `extract_file`, in program order:
a write making the given bytes (possibly none) reach the file at `path`,
and `set_execute_permission` on a path. -/
inductive FsEvent where
  | writeContent (path : String) (content : List Nat)
  | setExec (path : String)
deriving DecidableEq

/-- Models `Path::join` for the relative file names used here. -/
def joinPath (dir f : String) : String := dir ++ "/" ++ f

/-- The tar-branch scan of `extract_file`: walk the entries in stream
order, skip entries without a file name, return the first whose file name
equals `fname`. -/
def findEntry (entries : List TarEntry) (fname : String) : Option TarEntry :=
  entries.find? (fun e => fileName e.path == some fname)

/-- Models `extract_file` (src/utils.rs lines 65–101).  The gzip decoder
and the tar reader are external crates, passed as oracles: `gunzip` maps
the archive file's raw bytes to the decompressed stream, `tarOf` maps a
decompressed stream to its tar entries.  In the `.gz` branch the output
file is written through a `BufWriter` that is never flushed before
`set_execute_permission`: when `io::copy` returns, only a prefix of the
content (a chunking-dependent amount, `flushed`, up to everything except
the last partial 8 KiB buffer) has reached the file; the buffered tail
reaches it when the writer is dropped at the end of the branch, after the
chmod.  `flushed` is the oracle for that environment-determined prefix
length.  In the tar branch `Entry::unpack` completes its writes before
returning, so its trace has the full write before the chmod.  The result
is the output path together with the ordered trace of file-system
effects; I/O failures of open/create/copy are outside the model. -/
def extract_file (gunzip : List Nat → List Nat)
    (tarOf : List Nat → List TarEntry) (flushed : List Nat → Nat)
    (raw : List Nat) (path fname outdir : String) :
    Except ExtractError (String × List FsEvent) :=
  match SupportedExtension.from_path path with
  | .error e => .error e
  | .ok .gz =>
    .ok (joinPath outdir fname,
      [.writeContent (joinPath outdir fname)
        ((gunzip raw).take (flushed (gunzip raw))),
       .setExec (joinPath outdir fname),
       .writeContent (joinPath outdir fname)
        ((gunzip raw).drop (flushed (gunzip raw)))])
  | .ok .targz =>
    match findEntry (tarOf (gunzip raw)) fname with
    | some e =>
      .ok (joinPath outdir fname,
        [.writeContent (joinPath outdir fname) e.content,
         .setExec (joinPath outdir fname)])
    | none => .error (.fileNotFoundInArchive fname path)

/-- Models `set_execute_permission` (src/utils.rs lines 103–108) on the
permission mode word: `perms.set_mode(perms.mode() | 0o111)`. -/
def set_execute_permission (mode : Nat) : Nat := mode ||| 0o111

/-! ## Helper lemmas -/

theorem charOfNat_toNat (n : Nat) (h : n.isValidChar) :
    (Char.ofNat n).toNat = n := by
  simp [Char.ofNat, h, Char.toNat, Char.ofNatAux, BitVec.toNat_ofNatLt,
    UInt32.toNat]

theorem charLower_idem (c : Char) : charLower (charLower c) = charLower c := by
  unfold charLower
  by_cases h : 65 ≤ c.toNat ∧ c.toNat ≤ 90
  · have hv : (c.toNat + 32).isValidChar := Or.inl (by omega)
    rw [if_pos h, charOfNat_toNat _ hv, if_neg (by omega)]
  · rw [if_neg h, if_neg h]

theorem lowerList_idem (l : List Char) :
    lowerList (lowerList l) = lowerList l := by
  induction l with
  | nil => rfl
  | cons c t ih =>
    simp only [lowerList, List.map_cons] at ih ⊢
    rw [charLower_idem, ih]

theorem containsL_nil_needle (l : List Char) : containsL l [] = true := by
  cases l <;> rfl

theorem isEmpty_false_of_ne_nil {l : List Char} (h : l ≠ []) :
    l.isEmpty = false := by
  cases l with
  | nil => exact absurd rfl h
  | cons a t => rfl

/-- Computes `takeWhile`/`dropWhile` on a list that starts with a block
satisfying `p` followed by an element refuting `p`. -/
theorem takeWhile_append_eq (p : Char → Bool) (a : List Char) (y : Char)
    (r : List Char) (ha : ∀ x ∈ a, p x = true) (hy : p y = false) :
    (a ++ y :: r).takeWhile p = a ∧ (a ++ y :: r).dropWhile p = y :: r := by
  induction a with
  | nil => simp [List.takeWhile_cons, List.dropWhile_cons, hy]
  | cons x xs ih =>
    have hx : p x = true := ha x (by simp)
    have ih' := ih (fun c hc => ha c (by simp [hc]))
    simp [List.takeWhile_cons, List.dropWhile_cons, hx, ih'.1, ih'.2]

/-- Shows `find?` returns the element at the first index whose predicate
holds. -/
theorem find?_first {α : Type} (p : α → Bool) (l : List α) :
    ∀ (i : Nat) (hi : i < l.length),
      p (l.get ⟨i, hi⟩) = true →
      (∀ j, j < i → ∀ hj : j < l.length, p (l.get ⟨j, hj⟩) = false) →
      l.find? p = some (l.get ⟨i, hi⟩) := by
  induction l with
  | nil => intro i hi; exact absurd hi (Nat.not_lt_zero i)
  | cons a t ih =>
    intro i hi hp hmin
    cases i with
    | zero =>
      simp only [List.get] at hp ⊢
      simp [List.find?, hp]
    | succ i =>
      have ha : p a = false := hmin 0 (Nat.succ_pos i) (by simp)
      have hrec := ih i (Nat.lt_of_succ_lt_succ hi)
        (by simpa using hp)
        (by
          intro j hj hjl
          have := hmin (j + 1) (Nat.succ_lt_succ hj) (Nat.succ_lt_succ hjl)
          simpa using this)
      simp only [List.get] at hrec ⊢
      simp [List.find?, ha, hrec]

theorem not_tripleAt_nil : ¬ tripleAt ([] : List Char) := by
  rintro ⟨m, rest, ⟨a, b, c, ha, hb, hc, hm⟩, hl⟩
  subst hm
  cases a with
  | nil => exact ha.1 rfl
  | cons x xs => simp at hl

theorem matchTriple_sound (l m : List Char) (h : matchTriple l = some m) :
    isTriple m ∧ ∃ rest, l = m ++ rest := by
  unfold matchTriple at h
  by_cases h1 : (l.takeWhile Char.isDigit).isEmpty
  · rw [if_pos h1] at h; exact absurd h (by simp)
  · rw [if_neg h1] at h
    cases e1 : l.dropWhile Char.isDigit with
    | nil => rw [e1] at h; exact absurd h (by simp)
    | cons c1 r1 =>
      rw [e1] at h
      simp only [] at h
      by_cases hc1 : c1 = '.'
      case neg => rw [if_neg hc1] at h; exact absurd h (by simp)
      rw [if_pos hc1] at h
      subst hc1
      by_cases h2 : (r1.takeWhile Char.isDigit).isEmpty
      · rw [if_pos h2] at h; exact absurd h (by simp)
      · rw [if_neg h2] at h
        cases e2 : r1.dropWhile Char.isDigit with
        | nil => rw [e2] at h; exact absurd h (by simp)
        | cons c2 r2 =>
          rw [e2] at h
          simp only [] at h
          by_cases hc2 : c2 = '.'
          case neg => rw [if_neg hc2] at h; exact absurd h (by simp)
          rw [if_pos hc2] at h
          subst hc2
          by_cases h3 : (r2.takeWhile Char.isDigit).isEmpty
          · rw [if_pos h3] at h; exact absurd h (by simp)
          · rw [if_neg h3] at h
            have hm : m = l.takeWhile Char.isDigit ++ '.' ::
                r1.takeWhile Char.isDigit ++ '.' ::
                r2.takeWhile Char.isDigit := by
              have := h
              simp only [Option.some.injEq] at this
              exact this.symm
            have hne1 : l.takeWhile Char.isDigit ≠ [] := by
              intro hh; rw [hh] at h1; exact h1 rfl
            have hne2 : r1.takeWhile Char.isDigit ≠ [] := by
              intro hh; rw [hh] at h2; exact h2 rfl
            have hne3 : r2.takeWhile Char.isDigit ≠ [] := by
              intro hh; rw [hh] at h3; exact h3 rfl
            refine ⟨⟨l.takeWhile Char.isDigit, r1.takeWhile Char.isDigit,
              r2.takeWhile Char.isDigit,
              ⟨hne1, fun c hc => List.mem_takeWhile_imp hc⟩,
              ⟨hne2, fun c hc => List.mem_takeWhile_imp hc⟩,
              ⟨hne3, fun c hc => List.mem_takeWhile_imp hc⟩, hm⟩,
              r2.dropWhile Char.isDigit, ?_⟩
            have hl : l = l.takeWhile Char.isDigit ++ '.' :: r1 := by
              conv_lhs => rw [← List.takeWhile_append_dropWhile Char.isDigit l]
              rw [e1]
            have hr1 : r1 = r1.takeWhile Char.isDigit ++ '.' :: r2 := by
              conv_lhs => rw [← List.takeWhile_append_dropWhile Char.isDigit r1]
              rw [e2]
            have hr2 : r2 = r2.takeWhile Char.isDigit ++
                r2.dropWhile Char.isDigit := by
              rw [List.takeWhile_append_dropWhile]
            rw [hm]
            conv_lhs => rw [hl, hr1, hr2]
            simp [List.append_assoc]

theorem matchTriple_complete (l : List Char) (h : tripleAt l) :
    ∃ m, matchTriple l = some m := by
  obtain ⟨m, rest, ⟨a, b, c, ha, hb, hc, hm⟩, hl⟩ := h
  subst hm
  subst hl
  have hshape : (a ++ '.' :: b ++ '.' :: c) ++ rest
      = a ++ '.' :: (b ++ '.' :: (c ++ rest)) := by
    simp [List.append_assoc]
  rw [hshape]
  have hdot : Char.isDigit '.' = false := by decide
  have h1 := takeWhile_append_eq Char.isDigit a '.' (b ++ '.' :: (c ++ rest))
    ha.2 hdot
  have h2 := takeWhile_append_eq Char.isDigit b '.' (c ++ rest) hb.2 hdot
  have hc3 : ((c ++ rest).takeWhile Char.isDigit).isEmpty = false := by
    cases c with
    | nil => exact absurd rfl hc.1
    | cons x xs =>
      have hx : Char.isDigit x = true := hc.2 x (by simp)
      simp [List.takeWhile_cons, hx]
  unfold matchTriple
  simp only [h1.1, h1.2, h2.1, h2.2, isEmpty_false_of_ne_nil ha.1,
    isEmpty_false_of_ne_nil hb.1, hc3, Bool.false_eq_true, if_false, if_true,
    eq_self_iff_true]
  refine ⟨_, rfl⟩

theorem findTriple_eq_none_iff (l : List Char) :
    findTriple l = none ↔ ∀ n, ¬ tripleAt (l.drop n) := by
  induction l with
  | nil =>
    simp only [findTriple, List.drop_nil]
    exact ⟨fun _ _ => not_tripleAt_nil, fun _ => trivial⟩
  | cons ch t ih =>
    simp only [findTriple]
    cases hm : matchTriple (ch :: t) with
    | some m =>
      constructor
      · intro h; exact absurd h (by simp)
      · intro h
        obtain ⟨hT, rest, hrest⟩ := matchTriple_sound _ _ hm
        exact absurd (show tripleAt (ch :: t) from ⟨m, rest, hT, hrest⟩)
          (by simpa using h 0)
    | none =>
      rw [ih]
      constructor
      · intro h n
        cases n with
        | zero =>
          simp only [List.drop_zero]
          intro hT
          obtain ⟨m, hsome⟩ := matchTriple_complete _ hT
          rw [hm] at hsome; exact absurd hsome (by simp)
        | succ n => simpa using h n
      · intro h n
        simpa using h (n + 1)

theorem findTriple_eq_some (l m : List Char) (h : findTriple l = some m) :
    ∃ n, matchTriple (l.drop n) = some m ∧
      ∀ k, k < n → ¬ tripleAt (l.drop k) := by
  induction l with
  | nil => simp [findTriple] at h
  | cons ch t ih =>
    simp only [findTriple] at h
    cases hm : matchTriple (ch :: t) with
    | some m' =>
      rw [hm] at h
      simp only [Option.some.injEq] at h
      subst h
      exact ⟨0, by simpa using hm, fun k hk => absurd hk (Nat.not_lt_zero k)⟩
    | none =>
      rw [hm] at h
      obtain ⟨n, h1, h2⟩ := ih h
      refine ⟨n + 1, by simpa using h1, ?_⟩
      intro k hk
      cases k with
      | zero =>
        simp only [List.drop_zero]
        intro hT
        obtain ⟨mm, hsome⟩ := matchTriple_complete _ hT
        rw [hm] at hsome; exact absurd hsome (by simp)
      | succ k => simpa using h2 k (by omega)

theorem hasTriple_iff_drop (l : List Char) :
    hasTriple l ↔ ∃ n, tripleAt (l.drop n) := by
  constructor
  · rintro ⟨pre, m, post, hT, hl⟩
    refine ⟨pre.length, m, post, hT, ?_⟩
    subst hl
    rw [List.append_assoc, List.drop_left]
  · rintro ⟨n, m, rest, hT, hd⟩
    refine ⟨l.take n, m, rest, hT, ?_⟩
    conv_lhs => rw [← List.take_append_drop n l]
    rw [hd, List.append_assoc]

theorem hasTriple_iff_findTriple (l : List Char) :
    hasTriple l ↔ findTriple l ≠ none := by
  rw [hasTriple_iff_drop, Ne, findTriple_eq_none_iff]
  exact Iff.symm not_forall_not

instance hasTripleDecidable (l : List Char) : Decidable (hasTriple l) :=
  decidable_of_iff (findTriple l ≠ none) (hasTriple_iff_findTriple l).symm

/-! ## Claims -/

/-- C1 (counterexample): the text `"01.2.3"` contains a substring matching
`\d+\.\d+\.\d+`, yet `extract_version` does not succeed on it — the
matched text `01.2.3` has a leading zero, which `Version::parse`
rejects. -/
theorem extract_version_leading_zero :
    hasTriple ("01.2.3" : String).toList ∧
    extract_version "01.2.3" = .error .versionParseError :=
  ⟨by decide, by decide⟩

/-- C1 (amended): on any text containing a match of `\d+\.\d+\.\d+`,
`extract_version` takes the earliest-starting (leftmost) greedy match `m`
— no prefix of the text dropped before it starts with a match — and
returns `m` parsed as a `Version` when the parse succeeds, failing with a
version-parse error otherwise (which happens exactly when a matched
component has a leading zero or overflows `u64`). -/
theorem extract_version_leftmost (s : String) (h : hasTriple s.toList) :
    ∃ n m rest, findTriple s.toList = some m ∧ isTriple m ∧
      s.toList.drop n = m ++ rest ∧
      (∀ k, k < n → ¬ tripleAt (s.toList.drop k)) ∧
      extract_version s = (match parseVersion m with
        | some v => Except.ok v
        | none => Except.error VError.versionParseError) := by
  have hne : findTriple s.toList ≠ none := (hasTriple_iff_findTriple _).mp h
  cases hf : findTriple s.toList with
  | none => exact absurd hf hne
  | some m =>
    obtain ⟨n, hmt, hmin⟩ := findTriple_eq_some _ _ hf
    obtain ⟨hT, rest, hrest⟩ := matchTriple_sound _ _ hmt
    refine ⟨n, m, rest, rfl, hT, hrest, hmin, ?_⟩
    unfold extract_version
    rw [hf]

theorem extract_version_leftmost_witness :
    ∃ n m rest, findTriple ("lazygit version 0.50.0" : String).toList = some m ∧
      isTriple m ∧
      ("lazygit version 0.50.0" : String).toList.drop n = m ++ rest ∧
      (∀ k, k < n →
        ¬ tripleAt (("lazygit version 0.50.0" : String).toList.drop k)) ∧
      extract_version "lazygit version 0.50.0" = (match parseVersion m with
        | some v => Except.ok v
        | none => Except.error VError.versionParseError) :=
  extract_version_leftmost "lazygit version 0.50.0" (by decide)

/-- C9: on any text containing no substring matching `\d+\.\d+\.\d+`,
`extract_version` fails with the no-version-found error carrying the
input text. -/
theorem extract_version_no_match (s : String) (h : ¬ hasTriple s.toList) :
    extract_version s = .error (.noVersionFound s) := by
  have hnone : findTriple s.toList = none := by
    by_contra hne
    exact h ((hasTriple_iff_findTriple s.toList).mpr hne)
  unfold extract_version
  rw [hnone]

theorem extract_version_no_match_witness :
    extract_version "lazygit version" = .error (.noVersionFound "lazygit version") :=
  extract_version_no_match "lazygit version" (by decide)

/-- C2: `find_asset` fails with `NoAsset pat` when no asset matches,
returns the unique matching asset when exactly one matches, and fails
with `ManyAssets` carrying the pattern and all matched names when two or
more match. -/
theorem find_asset_match_count (r : Release) (pat : String) :
    (r.assets.countP (fun o => assetMatches o pat) = 0 →
      r.find_asset pat = .error (.noAsset pat)) ∧
    (∀ a, a ∈ r.assets → assetMatches a pat = true →
      r.assets.countP (fun o => assetMatches o pat) = 1 →
      r.find_asset pat = .ok a) ∧
    (2 ≤ r.assets.countP (fun o => assetMatches o pat) →
      r.find_asset pat = .error (.manyAssets pat
        ((r.assets.filter (fun o => assetMatches o pat)).map Asset.name))) := by
  have hcp := List.countP_eq_length_filter (fun o => assetMatches o pat) r.assets
  refine ⟨?_, ?_, ?_⟩
  · intro h0
    have hnil : r.assets.filter (fun o => assetMatches o pat) = [] := by
      rw [hcp] at h0
      exact List.length_eq_zero.mp h0
    unfold Release.find_asset
    rw [hnil]
  · intro a ha hm h1
    rw [hcp] at h1
    obtain ⟨x, hx⟩ := List.length_eq_one.mp h1
    have hax : a ∈ r.assets.filter (fun o => assetMatches o pat) :=
      List.mem_filter.mpr ⟨ha, hm⟩
    rw [hx] at hax
    have hxa : a = x := by simpa using hax
    subst hxa
    unfold Release.find_asset
    rw [hx]
  · intro h2
    rw [hcp] at h2
    obtain ⟨a, b, t, hft⟩ : ∃ a b t,
        r.assets.filter (fun o => assetMatches o pat) = a :: b :: t := by
      cases hf : r.assets.filter (fun o => assetMatches o pat) with
      | nil => rw [hf] at h2; simp at h2
      | cons a s =>
        cases s with
        | nil => rw [hf] at h2; simp at h2
        | cons b t => exact ⟨a, b, t, rfl⟩
    unfold Release.find_asset
    rw [hft]

theorem find_asset_match_count_witness :
    Release.find_asset ⟨"", "", 0,
        [⟨"lazygit_0.54.1_linux_x86_64.tar.gz", "", 0⟩,
         ⟨"lazygit_0.54.1_darwin_arm64.tar.gz", "", 0⟩]⟩ "linux"
      = .ok ⟨"lazygit_0.54.1_linux_x86_64.tar.gz", "", 0⟩ :=
  (find_asset_match_count ⟨"", "", 0,
      [⟨"lazygit_0.54.1_linux_x86_64.tar.gz", "", 0⟩,
       ⟨"lazygit_0.54.1_darwin_arm64.tar.gz", "", 0⟩]⟩ "linux").2.1
    ⟨"lazygit_0.54.1_linux_x86_64.tar.gz", "", 0⟩
    (by decide) (by decide) (by decide)

/-- C4 (counterexample): matching is not case-insensitive on both sides —
with the single asset named `Linux_x86_64`, the pattern `linux` matches
but the same pattern uppercased, `LINUX`, matches nothing, so altering
the pattern's letter case changes the result. -/
theorem find_asset_pattern_case :
    Release.find_asset ⟨"", "", 0, [⟨"Linux_x86_64", "", 0⟩]⟩ "linux"
      = .ok ⟨"Linux_x86_64", "", 0⟩ ∧
    Release.find_asset ⟨"", "", 0, [⟨"Linux_x86_64", "", 0⟩]⟩ "LINUX"
      = .error (.noAsset "LINUX") :=
  ⟨by decide, by decide⟩

/-- C4 (amended): matching lowercases only the asset name: an asset
matches iff its lowercased name contains the pattern as given, so the
result is unchanged when the asset NAME's letter case is altered (the
pattern's case, by contrast, is significant). -/
theorem assetMatches_name_case (a : Asset) (pat : String) :
    assetMatches ⟨lowerStr a.name, a.browser_download_url, a.size⟩ pat
        = assetMatches a pat ∧
    ∀ b : Asset, lowerStr b.name = lowerStr a.name →
      assetMatches b pat = assetMatches a pat := by
  have key : ∀ s : String, lowerList (lowerStr s).toList = lowerList s.toList := by
    intro s
    show lowerList (String.mk (lowerList s.toList)).toList = lowerList s.toList
    exact lowerList_idem s.toList
  constructor
  · unfold assetMatches
    rw [key a.name]
  · intro b hb
    unfold assetMatches
    have hnames : lowerList b.name.toList = lowerList a.name.toList := by
      have hcongr := congrArg String.toList hb
      simp only [lowerStr] at hcongr
      exact hcongr
    rw [hnames]

theorem assetMatches_name_case_witness :
    assetMatches ⟨"Linux_X86_64", "", 0⟩ "LINUX"
      = assetMatches ⟨"linux_x86_64", "", 0⟩ "LINUX" :=
  (assetMatches_name_case ⟨"linux_x86_64", "", 0⟩ "LINUX").2
    ⟨"Linux_X86_64", "", 0⟩ (by decide)

/-- C10: with the empty pattern every asset matches, so `find_asset`
fails with `NoAsset` on a release with no assets, returns the sole asset
when there is exactly one, and fails with `ManyAssets` listing every
asset name when there are two or more. -/
theorem find_asset_empty_pattern (r : Release) :
    r.find_asset "" = (match r.assets with
      | [] => .error (.noAsset "")
      | [a] => .ok a
      | l => .error (.manyAssets "" (l.map Asset.name))) := by
  have hall : ∀ a ∈ r.assets, assetMatches a "" = true := by
    intro a _
    unfold assetMatches
    exact containsL_nil_needle _
  have hfilter : r.assets.filter (fun o => assetMatches o "") = r.assets :=
    List.filter_eq_self.mpr hall
  unfold Release.find_asset
  rw [hfilter]
  cases hA : r.assets with
  | nil => rfl
  | cons a t =>
    cases t with
    | nil => rfl
    | cons b t2 => rfl

/-- C7: the release version is the one extracted from the tag name
whenever the tag yields one; the body is consulted only when the tag
yields none. -/
theorem version_tag_first (r : Release) :
    (∀ v, extract_version r.tag_name = .ok v → r.version = .ok v) ∧
    (∀ e, extract_version r.tag_name = .error e →
      r.version = extract_version r.body) := by
  constructor
  · intro v hv
    unfold Release.version
    rw [hv]
  · intro e he
    unfold Release.version
    rw [he]

theorem version_tag_first_witness :
    Release.version ⟨"v0.54.1", "notes mention 9.9.9", 0, []⟩ = .ok ⟨0, 54, 1⟩ :=
  (version_tag_first ⟨"v0.54.1", "notes mention 9.9.9", 0, []⟩).1
    ⟨0, 54, 1⟩ (by decide)

/-- C6: classification by suffix: a path whose file name ends in
`.tar.gz` yields `TarGz`, one ending in `.gz` but not `.tar.gz` yields
`Gz`, and any other file name fails with the unsupported-extension
error. -/
theorem from_path_classification (path name : String)
    (h : fileName path = some name) :
    (strEndsWith name ".tar.gz" = true →
      SupportedExtension.from_path path = .ok .targz) ∧
    (strEndsWith name ".gz" = true → strEndsWith name ".tar.gz" = false →
      SupportedExtension.from_path path = .ok .gz) ∧
    (strEndsWith name ".gz" = false → strEndsWith name ".tar.gz" = false →
      SupportedExtension.from_path path = .error .unsupportedExtension) := by
  unfold SupportedExtension.from_path
  rw [h]
  simp only []
  refine ⟨fun h1 => ?_, fun h1 h2 => ?_, fun h1 h2 => ?_⟩
  · rw [if_pos h1]
  · rw [if_neg (by simp [h2]), if_pos h1]
  · rw [if_neg (by simp [h2]), if_neg (by simp [h1])]

theorem from_path_classification_witness :
    SupportedExtension.from_path "lazygit_0.54.1_linux_x86_64.tar.gz"
      = .ok .targz :=
  (from_path_classification "lazygit_0.54.1_linux_x86_64.tar.gz"
    "lazygit_0.54.1_linux_x86_64.tar.gz" (by decide)).1 (by decide)

/-- C3: in the tar branch, `extract_file` unpacks exactly the first entry
in stream order whose base file name equals the target name, writes it to
`outdir/fname` and stops there; when no entry's base name matches, it
fails with the file-not-found-in-archive error naming the target and the
archive path. -/
theorem extract_file_targz_first_match (gunzip : List Nat → List Nat)
    (tarOf : List Nat → List TarEntry) (flushed : List Nat → Nat)
    (raw : List Nat) (path fname outdir : String) (entries : List TarEntry)
    (hext : SupportedExtension.from_path path = .ok .targz)
    (hE : tarOf (gunzip raw) = entries) :
    ((∀ e ∈ entries, fileName e.path ≠ some fname) →
      extract_file gunzip tarOf flushed raw path fname outdir
        = .error (.fileNotFoundInArchive fname path)) ∧
    (∀ (i : Nat) (hi : i < entries.length),
      fileName (entries.get ⟨i, hi⟩).path = some fname →
      (∀ j, j < i → ∀ hj : j < entries.length,
        fileName (entries.get ⟨j, hj⟩).path ≠ some fname) →
      extract_file gunzip tarOf flushed raw path fname outdir
        = .ok (joinPath outdir fname,
            [.writeContent (joinPath outdir fname)
              (entries.get ⟨i, hi⟩).content,
             .setExec (joinPath outdir fname)])) := by
  constructor
  · intro hnone
    unfold extract_file
    rw [hext]
    simp only []
    have hfe : findEntry (tarOf (gunzip raw)) fname = none := by
      unfold findEntry
      rw [hE, List.find?_eq_none]
      intro e he
      simpa using hnone e he
    rw [hfe]
  · intro i hi hp hmin
    unfold extract_file
    rw [hext]
    simp only []
    have hfe : findEntry (tarOf (gunzip raw)) fname
        = some (entries.get ⟨i, hi⟩) := by
      unfold findEntry
      rw [hE]
      apply find?_first
      · simp only [beq_iff_eq]
        exact hp
      · intro j hj hjl
        simp only [beq_eq_false_iff_ne, ne_eq]
        exact hmin j hj hjl
    rw [hfe]

theorem extract_file_targz_first_match_witness :
    extract_file (fun _ => []) (fun _ => [⟨"d/other", [1]⟩, ⟨"d/bin", [2, 3]⟩,
        ⟨"e/bin", [9]⟩]) (fun _ => 0) [] "a.tar.gz" "bin" "out"
      = .ok (joinPath "out" "bin",
          [.writeContent (joinPath "out" "bin") [2, 3],
           .setExec (joinPath "out" "bin")]) :=
  (extract_file_targz_first_match (fun _ => []) (fun _ => [⟨"d/other", [1]⟩,
      ⟨"d/bin", [2, 3]⟩, ⟨"e/bin", [9]⟩]) (fun _ => 0) [] "a.tar.gz" "bin" "out"
      [⟨"d/other", [1]⟩, ⟨"d/bin", [2, 3]⟩, ⟨"e/bin", [9]⟩]
      (by decide) rfl).2 1 (by decide) (by decide)
    (by
      intro j hj hjl
      cases j with
      | zero => exact (by decide : fileName "d/other" ≠ some "bin")
      | succ n => exact absurd hj (by omega))

/-- C5 (code bug): the claim matches the spec's stated intent, but in the
SingleGzip branch (src/utils.rs lines 76–82) the `BufWriter` wrapping the
output file is never flushed before `set_execute_permission`, so content
still sitting in the buffer reaches the file only when the writer drops,
after the chmod.  Evaluating the model at a `.gz` archive whose 2-byte
decompressed content fits entirely in the buffer (`flushed` = 0): the
execute bits are set while none of the content has been written, the full
content arriving only afterwards — the exec-bit step does not run "only
after the full decompressed file content has been written". -/
theorem extract_file_gz_chmod_before_flush :
    extract_file (fun _ => [104, 105]) (fun _ => []) (fun _ => 0) []
        "a.gz" "bin" "out"
      = .ok (joinPath "out" "bin",
          [.writeContent (joinPath "out" "bin") [],
           .setExec (joinPath "out" "bin"),
           .writeContent (joinPath "out" "bin") [104, 105]]) := by decide

/-- C8: after `set_execute_permission`, the mode equals the previous mode
bitwise-or `0o111`: all three execute bits are set and every previously
set permission bit remains set. -/
theorem set_execute_permission_spec (mode : Nat) :
    set_execute_permission mode = mode ||| 0o111 ∧
    set_execute_permission mode &&& 0o111 = 0o111 ∧
    set_execute_permission mode &&& mode = mode := by
  refine ⟨rfl, ?_, ?_⟩
  · apply Nat.eq_of_testBit_eq
    intro i
    rw [set_execute_permission, Nat.testBit_land, Nat.testBit_lor]
    cases hm : Nat.testBit mode i <;> cases h7 : Nat.testBit 73 i <;> simp
  · apply Nat.eq_of_testBit_eq
    intro i
    rw [set_execute_permission, Nat.testBit_land, Nat.testBit_lor]
    cases hm : Nat.testBit mode i <;> cases h7 : Nat.testBit 73 i <;> simp

end DLReleases
